import Mathlib

/-!
Verification of the base-conversion arithmetic helpers of the zkevm-circuits
keccak256 package (`src/keccak256/src/arith_helpers.rs`), shallowly embedded
over `ℕ` (for `u64`/`u8`/`BigUint` values) and `List ℕ` (for digit vectors).
Panics (failed `debug_assert!`, out-of-bounds indexing, `Option::unwrap` on
`None`) are modelled by `Option` with `none` standing for the abort.
-/

namespace ZkKeccak

/-! ### num-bigint radix primitives, as used by the source -/

/-- Fuel-driven little-endian radix decomposition; with `fuel ≥ n` this agrees
with `Nat.digits b n` (proved below) while staying kernel-computable. -/
def toRadixLeAux (b : ℕ) : ℕ → ℕ → List ℕ
  | 0, _ => []
  | fuel + 1, n => if n = 0 then [] else n % b :: toRadixLeAux b fuel (n / b)

/-- `BigUint::to_radix_le(x, b)`: little-endian base-`b` digits of `x`.
num-bigint returns the single digit `[0]` for zero, and `assert!`s
`2 <= radix <= 256`; the model is only used, and only claimed exact, for a
radix in that range. -/
def to_radix_le (x b : ℕ) : List ℕ :=
  if x = 0 then [0] else toRadixLeAux b x x

/-- `BigUint::to_radix_be(x, b)`: big-endian digits, the reverse of the
little-endian ones. -/
def to_radix_be (x b : ℕ) : List ℕ :=
  (to_radix_le x b).reverse

/-- `BigUint::from_radix_le(digits, b)`: recompose little-endian digits;
`None` when some digit is `≥ b`.  num-bigint additionally `assert!`s
`2 <= radix <= 256` (a panic in every build, not a `None`); the model folds
that region into `none` as well, so theorems about the `None`-to-zero
defaulting restrict the radix to `2..=256`, where the model is exact. -/
def from_radix_le (digits : List ℕ) (b : ℕ) : Option ℕ :=
  if 2 ≤ b ∧ b ≤ 256 ∧ digits.all (fun d => decide (d < b)) then
    some (Nat.ofDigits b digits)
  else
    none

/-- `BigUint::from_radix_be(digits, b)`. -/
def from_radix_be (digits : List ℕ) (b : ℕ) : Option ℕ :=
  from_radix_le digits.reverse b

/-- `Vec::resize(n, 0)`: truncate or zero-pad on the high end to length `n`. -/
def resize (l : List ℕ) (n : ℕ) : List ℕ :=
  l.take n ++ List.replicate (n - l.length) 0

/-- `BigUint::to_bytes_le`: minimal little-endian byte representation
(`[0]` for zero). -/
def to_bytes_le (x : ℕ) : List ℕ :=
  to_radix_le x 256

/-- `x.iter_u64_digits().take(1).next().unwrap_or(0)`: the least-significant
64-bit limb of `x`, or `0` when `x` has no limbs (i.e. `x = 0`). -/
def first_u64_digit (x : ℕ) : ℕ :=
  (Nat.digits (2 ^ 64) x).headD 0

/-! ### Constants (`arith_helpers.rs` lines 9-22) -/

def B2 : ℕ := 2
def B13 : ℕ := 13
def B9 : ℕ := 9

/-! ### Digit codecs -/

/-- `convert_b13_coef` (lines 117-120): `x & 1`.  The `debug_assert!(x < 13)`
precondition is carried as a hypothesis of the theorems that quote it. -/
def convert_b13_coef (x : ℕ) : ℕ := x &&& 1

/-- The 9-entry lookup table of `convert_b9_coef`. -/
def bit_table : List ℕ := [0, 0, 1, 1, 0, 0, 1, 1, 0]

/-- `convert_b9_coef` (lines 127-131): `bit_table[x]` for `x < 9`. -/
def convert_b9_coef (x : ℕ) : ℕ := bit_table.getD x 0

/-! ### Lane converters -/

/-- `convert_b2_to_b13` (lines 91-98): accumulate `bit_i * 13 ^ i` over the 64
bits of the word. -/
def convert_b2_to_b13 (a : ℕ) : ℕ :=
  (List.range 64).foldl (fun lane13 i => lane13 + ((a >>> i) &&& 1) * B13 ^ i) 0

/-- `convert_b2_to_b9` (lines 100-107). -/
def convert_b2_to_b9 (a : ℕ) : ℕ :=
  (List.range 64).foldl (fun lane9 i => lane9 + ((a >>> i) &&& 1) * B9 ^ i) 0

/-- `convert_b13_lane_to_b9` (lines 135-155): 65 little-endian base-13 chunks,
fold chunk 0 and chunk 64 into `special`, split the middle 63 chunks at
`63 - rot`, reassemble `right ++ [special] ++ left`, map `convert_b13_coef`,
recompose little-endian in base 9. -/
def convert_b13_lane_to_b9 (x : ℕ) (rot : ℕ) : ℕ :=
  let chunks := resize (to_radix_le x B13) 65
  let special := chunks.getD 0 0 + chunks.getD 64 0
  let middle := (chunks.drop 1).take 63
  let left := middle.take (63 - rot)
  let right := middle.drop (63 - rot)
  let rotated := (right ++ [special] ++ left).map convert_b13_coef
  (from_radix_le rotated B9).getD 0

/-- `convert_lane` (lines 157-164): big-endian digit decomposition in
`from_base`, digit-wise `coef_transform`, big-endian recomposition in
`to_base`, with `unwrap_or_default` turning a failed recomposition into 0. -/
def convert_lane (lane : ℕ) (from_base to_base : ℕ) (coef_transform : ℕ → ℕ) : ℕ :=
  let chunks := to_radix_be lane from_base
  let converted_chunks := chunks.map coef_transform
  (from_radix_be converted_chunks to_base).getD 0

/-- `convert_b9_lane_to_b2` (lines 170-176). -/
def convert_b9_lane_to_b2 (x : ℕ) : ℕ :=
  first_u64_digit (convert_lane x B9 2 convert_b9_coef)

/-- `convert_b9_lane_to_b2_normal` (lines 178-184): identity coefficient. -/
def convert_b9_lane_to_b2_normal (x : ℕ) : ℕ :=
  first_u64_digit (convert_lane x B9 2 (fun y => y))

/-! ### State container -/

/-- `StateBigInt` (lines 27-30): a flat vector of 25 arbitrary-precision
lanes. -/
structure StateBigInt where
  xy : List ℕ
  deriving DecidableEq

/-- `StateBigInt::default()` (lines 31-39): push 25 zeroes. -/
def StateBigInt.default : StateBigInt :=
  ⟨(List.range 25).foldl (fun xy _ => xy ++ [0]) []⟩

/-- `Index<(usize, usize)> for StateBigInt` (lines 65-73): the two
`debug_assert!` bounds checks and the `Vec` bounds check are modelled as
fatal (`none`); otherwise the lane at `x * 5 + y` is returned. -/
def StateBigInt.index (s : StateBigInt) (x y : ℕ) : Option ℕ :=
  if x < 5 then
    if y < 5 then s.xy[x * 5 + y]? else none
  else none

/-- `IndexMut<(usize, usize)> for StateBigInt` (lines 75-82), as a functional
store: `none` on a failed bounds check, otherwise the updated state. -/
def StateBigInt.index_mut_set (s : StateBigInt) (x y v : ℕ) : Option StateBigInt :=
  if x < 5 then
    if y < 5 then
      if x * 5 + y < s.xy.length then some ⟨s.xy.set (x * 5 + y) v⟩ else none
    else none
  else none

/-- `(0..5).cartesian_product(0..5)`: x-major enumeration of coordinates. -/
def cartesian_product_5_5 : List (ℕ × ℕ) :=
  ((List.range 5).map (fun x => (List.range 5).map (fun y => (x, y)))).flatten

/-- `StateBigInt::from_state_big_int` (lines 52-63): start from the default
state and set every coordinate to the transformed source lane. -/
def StateBigInt.from_state_big_int (a : StateBigInt) (lane_transform : ℕ → ℕ) :
    Option StateBigInt :=
  cartesian_product_5_5.foldlM
    (fun out p => do
      let v ← a.index p.1 p.2
      out.index_mut_set p.1 p.2 (lane_transform v))
    StateBigInt.default

/-! ### Field-element bridge -/

/-- `F::from_repr` for a field `F` with modulus `p` and a canonical 32-byte
little-endian representation: succeeds exactly on values `< p`. -/
def from_repr (p : ℕ) (bytes : List ℕ) : Option ℕ :=
  if Nat.ofDigits 256 bytes < p then some (Nat.ofDigits 256 bytes) else none

/-- `state_bigint_to_field` (lines 229-244) over a field with modulus `p` and
output arity `n`: every lane's little-endian bytes are copied into a 32-byte
array (a lane longer than 32 bytes makes `copy_from_slice` panic, modelled as
`none`) and decoded with `F::from_repr(..).unwrap()` (a non-canonical value
panics, modelled as `none`); the first `n` elements are returned. -/
def state_bigint_to_field (p n : ℕ) (state : StateBigInt) : Option (List ℕ) := do
  let vector ← state.xy.mapM (fun elem =>
    let bytes := to_bytes_le elem
    if bytes.length ≤ 32 then
      from_repr p (bytes ++ List.replicate (32 - bytes.length) 0)
    else none)
  if n ≤ vector.length then some (vector.take n) else none

/-! ### Helper lemmas -/

/-- A recomposition whose digit list contains a digit `≥ b` fails. -/
theorem from_radix_le_eq_none {digits : List ℕ} {b : ℕ}
    (h : ∃ d ∈ digits, b ≤ d) : from_radix_le digits b = none := by
  obtain ⟨d, hmem, hge⟩ := h
  unfold from_radix_le
  rw [if_neg]
  rintro ⟨-, -, hall⟩
  have hd := List.all_eq_true.mp hall d hmem
  exact absurd (of_decide_eq_true hd) (Nat.not_lt.mpr hge)

/-- The least-significant 64-bit limb of `x` is `x % 2 ^ 64`. -/
theorem first_u64_digit_eq_mod (x : ℕ) : first_u64_digit x = x % 2 ^ 64 := by
  rcases Nat.eq_zero_or_pos x with hx | hx
  · subst hx
    simp [first_u64_digit]
  · unfold first_u64_digit
    rw [Nat.digits_def' (b := 2 ^ 64) (by norm_num) hx]
    rfl

/-! ### Claims -/

/-- C4: for every `x` in `[0, 13)`, `convert_b13_coef x = x % 2`. -/
theorem c4_convert_b13_coef_is_mod_two (x : ℕ) (hx : x < 13) :
    convert_b13_coef x = x % 2 := by
  unfold convert_b13_coef
  exact Nat.and_one_is_mod x

/-- Witness for C4 at `x = 5`. -/
theorem c4_witness : 5 < 13 ∧ convert_b13_coef 5 = 5 % 2 :=
  ⟨by decide, c4_convert_b13_coef_is_mod_two 5 (by decide)⟩

/-- C3: `convert_b9_coef (2a + b + 3c + 2d)` is `a ^ (!b & c) ^ d` for all bits
`a b c d`, and the lookup table sends `0..8` to `[0,0,1,1,0,0,1,1,0]`. -/
theorem c3_convert_b9_coef_formula :
    (∀ a b c d : Bool,
      convert_b9_coef (2 * a.toNat + b.toNat + 3 * c.toNat + 2 * d.toNat) =
        (Bool.xor (Bool.xor a ((!b) && c)) d).toNat) ∧
    (List.range 9).map convert_b9_coef = [0, 0, 1, 1, 0, 0, 1, 1, 0] := by
  decide

set_option maxHeartbeats 2000000 in
/-- C6: the base-13 lane with little-endian digits `[0,1,1,1]` maps, at
`rot = 0`, to the base-9 recomposition of `[0,1,1,1]` (pure re-basing), and at
`rot = 4` to the base-9 recomposition of `[0,0,0,0,0,1,1,1]`. -/
theorem c6_concrete_rotations :
    convert_b13_lane_to_b9 (Nat.ofDigits 13 [0, 1, 1, 1]) 0 =
      Nat.ofDigits 9 [0, 1, 1, 1] ∧
    convert_b13_lane_to_b9 (Nat.ofDigits 13 [0, 1, 1, 1]) 4 =
      Nat.ofDigits 9 [0, 0, 0, 0, 0, 1, 1, 1] := by
  decide

/-- C7: over num-bigint's supported radix range `2..=256` (outside it the
library `assert!`s before any digit is examined), a transformed digit
`≥ to_base` makes `convert_lane` return 0, and a digit `≥ 9` makes the final
recomposition step of `convert_b13_lane_to_b9` (`from_radix_le _ B9`
followed by `unwrap_or_default`) return 0. -/
theorem c7_malformed_digits_default_to_zero :
    (∀ (lane from_base to_base : ℕ) (coef_transform : ℕ → ℕ),
      2 ≤ from_base → from_base ≤ 256 → 2 ≤ to_base → to_base ≤ 256 →
      (∃ d ∈ (to_radix_be lane from_base).map coef_transform, to_base ≤ d) →
      convert_lane lane from_base to_base coef_transform = 0) ∧
    (∀ rotated : List ℕ, (∃ d ∈ rotated, 9 ≤ d) →
      (from_radix_le rotated B9).getD 0 = 0) := by
  constructor
  · intro lane from_base to_base coef_transform hfb hfb' htb htb'
      ⟨d, hmem, hge⟩
    have hnone :
        from_radix_be ((to_radix_be lane from_base).map coef_transform)
          to_base = none := by
      unfold from_radix_be
      exact from_radix_le_eq_none ⟨d, List.mem_reverse.mpr hmem, hge⟩
    simp only [convert_lane, hnone, Option.getD_none]
  · intro rotated h
    obtain ⟨d, hmem, hge⟩ := h
    have hnone : from_radix_le rotated B9 = none :=
      from_radix_le_eq_none ⟨d, hmem, hge⟩
    rw [hnone]
    rfl

/-- Witness for C7: constant coefficient 3 with target base 2, and the digit
list `[9]` in base 9. -/
theorem c7_witness :
    convert_lane 5 9 2 (fun _ => 3) = 0 ∧ (from_radix_le [9] B9).getD 0 = 0 :=
  ⟨c7_malformed_digits_default_to_zero.1 5 9 2 (fun _ => 3)
      (by decide) (by decide) (by decide) (by decide)
      ⟨3, by decide, by decide⟩,
    c7_malformed_digits_default_to_zero.2 [9] ⟨9, by decide, by decide⟩⟩

/-- C8: an access with `x ≥ 5` or `y ≥ 5` through `Index` or `IndexMut` is
fatal (the `debug_assert!` checks reject it) and never yields a lane. -/
theorem c8_out_of_range_access_is_fatal (s : StateBigInt) (x y v : ℕ)
    (h : 5 ≤ x ∨ 5 ≤ y) :
    s.index x y = none ∧ s.index_mut_set x y v = none := by
  unfold StateBigInt.index StateBigInt.index_mut_set
  rcases h with h | h
  · rw [if_neg (by omega), if_neg (by omega)]
    exact ⟨rfl, rfl⟩
  · by_cases hx : x < 5
    · rw [if_pos hx, if_neg (by omega), if_pos hx, if_neg (by omega)]
      exact ⟨rfl, rfl⟩
    · rw [if_neg hx, if_neg hx]
      exact ⟨rfl, rfl⟩

/-- Witness for C8 at `(x, y) = (7, 0)` on the default state. -/
theorem c8_witness :
    StateBigInt.default.index 7 0 = none ∧
      StateBigInt.default.index_mut_set 7 0 3 = none :=
  c8_out_of_range_access_is_fatal StateBigInt.default 7 0 3 (Or.inl (by decide))

/-- C10: both base-9-to-binary converters return the full binary recomposition
reduced modulo `2 ^ 64` (hence 0 when the recomposition is 0). -/
theorem c10_low_limb_only (x : ℕ) :
    convert_b9_lane_to_b2 x = convert_lane x B9 2 convert_b9_coef % 2 ^ 64 ∧
    convert_b9_lane_to_b2_normal x =
      convert_lane x B9 2 (fun y => y) % 2 ^ 64 := by
  unfold convert_b9_lane_to_b2 convert_b9_lane_to_b2_normal
  exact ⟨first_u64_digit_eq_mod _, first_u64_digit_eq_mod _⟩

/-! ### Digit-list machinery for the round-trip claims -/

/-- `toRadixLeAux` with enough fuel computes `Nat.digits`. -/
theorem toRadixLeAux_eq_digits {b : ℕ} (hb : 2 ≤ b) :
    ∀ fuel n, n ≤ fuel → toRadixLeAux b fuel n = Nat.digits b n := by
  intro fuel
  induction fuel with
  | zero =>
    intro n hn
    interval_cases n
    simp [toRadixLeAux]
  | succ fuel ih =>
    intro n hn
    rcases Nat.eq_zero_or_pos n with h0 | hpos
    · subst h0
      simp [toRadixLeAux]
    · have hdiv : n / b ≤ fuel := by
        have := Nat.div_lt_self hpos (by omega : 1 < b)
        omega
      unfold toRadixLeAux
      rw [if_neg (Nat.pos_iff_ne_zero.mp hpos), ih (n / b) hdiv,
        Nat.digits_def' (by omega : 1 < b) hpos]

/-- `to_radix_le` agrees with `Nat.digits` away from zero. -/
theorem to_radix_le_eq {b : ℕ} (hb : 2 ≤ b) (x : ℕ) :
    to_radix_le x b = if x = 0 then [0] else Nat.digits b x := by
  unfold to_radix_le
  rcases eq_or_ne x 0 with rfl | hx
  · simp
  · rw [if_neg hx, if_neg hx, toRadixLeAux_eq_digits hb x x le_rfl]

/-- The `n` low bits of `a`, least-significant first, as produced by the
`(a >> i) & 1` loop of the binary-to-base-`b` converters. -/
def bitsLe (n a : ℕ) : List ℕ :=
  (List.range n).map (fun i => (a >>> i) &&& 1)

theorem foldl_bits_eq_ofDigits (b a : ℕ) :
    ∀ n, (List.range n).foldl (fun acc i => acc + ((a >>> i) &&& 1) * b ^ i) 0 =
      Nat.ofDigits b (bitsLe n a) := by
  intro n
  induction n with
  | zero => simp [bitsLe]
  | succ n ih =>
    rw [List.range_succ, List.foldl_append, ih]
    unfold bitsLe
    rw [List.range_succ, List.map_append, Nat.ofDigits_append]
    simp only [List.foldl_cons, List.foldl_nil, List.length_map,
      List.length_range, List.map_cons, List.map_nil, Nat.ofDigits_singleton]
    ring

theorem ofDigits_two_bitsLe (a : ℕ) :
    ∀ n, Nat.ofDigits 2 (bitsLe n a) = a % 2 ^ n := by
  intro n
  induction n with
  | zero => simp [bitsLe, Nat.mod_one]
  | succ n ih =>
    unfold bitsLe at ih ⊢
    rw [List.range_succ, List.map_append, Nat.ofDigits_append, ih]
    simp only [List.length_map, List.length_range, List.map_cons, List.map_nil,
      Nat.ofDigits_singleton]
    rw [Nat.and_one_is_mod, Nat.shiftRight_eq_div_pow, Nat.mod_pow_succ]

theorem bitsLe_lt_two {n a : ℕ} : ∀ d ∈ bitsLe n a, d < 2 := by
  intro d hd
  simp only [bitsLe, List.mem_map] at hd
  obtain ⟨i, -, rfl⟩ := hd
  rw [Nat.and_one_is_mod]
  exact Nat.mod_lt _ (by omega)

/-- Strip the trailing (most-significant) zeros of a little-endian digit
list. -/
def dropTrailingZeros (l : List ℕ) : List ℕ :=
  (l.reverse.dropWhile (fun d => d == 0)).reverse

theorem dropTrailingZeros_spec (l : List ℕ) :
    ∃ k, l = dropTrailingZeros l ++ List.replicate k 0 := by
  refine ⟨(l.reverse.takeWhile (fun d => d == 0)).length, ?_⟩
  conv_lhs => rw [← l.reverse_reverse,
    ← List.takeWhile_append_dropWhile (p := fun d => d == 0) (l := l.reverse)]
  rw [List.reverse_append]
  unfold dropTrailingZeros
  congr 1
  have hz : ∀ x ∈ l.reverse.takeWhile (fun d => d == 0), x = 0 := by
    intro x hx
    simpa using List.mem_takeWhile_imp hx
  rw [List.eq_replicate_of_mem hz, List.reverse_replicate,
    List.length_replicate]

theorem ofDigits_replicate_zero (b : ℕ) :
    ∀ k, Nat.ofDigits b (List.replicate k 0) = 0 := by
  intro k
  induction k with
  | zero => rfl
  | succ k ih => simp [List.replicate_succ, Nat.ofDigits_cons, ih]

theorem ofDigits_dropTrailingZeros (b : ℕ) (l : List ℕ) :
    Nat.ofDigits b (dropTrailingZeros l) = Nat.ofDigits b l := by
  obtain ⟨k, hk⟩ := dropTrailingZeros_spec l
  conv_rhs => rw [hk]
  rw [Nat.ofDigits_append, ofDigits_replicate_zero, Nat.mul_zero, Nat.add_zero]

theorem dropTrailingZeros_getLast (l : List ℕ)
    (h : dropTrailingZeros l ≠ []) : (dropTrailingZeros l).getLast h ≠ 0 := by
  unfold dropTrailingZeros at h ⊢
  rw [List.getLast_reverse]
  intro hzero
  have hnot := List.head_dropWhile_not (fun d => d == 0) l.reverse
    (by simpa using h)
  rw [hzero] at hnot
  simp at hnot

theorem mem_dropTrailingZeros {l : List ℕ} {d : ℕ}
    (hd : d ∈ dropTrailingZeros l) : d ∈ l := by
  unfold dropTrailingZeros at hd
  rw [List.mem_reverse] at hd
  exact List.mem_reverse.mp
    ((List.dropWhile_sublist (p := fun d => d == 0)).mem hd)

theorem digits_ofDigits_eq_dropTrailingZeros {b : ℕ} (hb : 2 ≤ b)
    (l : List ℕ) (hl : ∀ d ∈ l, d < b) :
    Nat.digits b (Nat.ofDigits b l) = dropTrailingZeros l := by
  rw [← ofDigits_dropTrailingZeros b l]
  exact Nat.digits_ofDigits b (by omega) _
    (fun d hd => hl d (mem_dropTrailingZeros hd)) (dropTrailingZeros_getLast l)

theorem ofDigits_eq_zero_of_all_zero {b : ℕ} {l : List ℕ}
    (h : ∀ d ∈ l, d = 0) : Nat.ofDigits b l = 0 := by
  rw [List.eq_replicate_of_mem h]
  exact ofDigits_replicate_zero b _

/-- Master round-trip: converting a one-bit-per-digit base-`b` lane back to
binary with the identity coefficient recovers the low 64 bits. -/
theorem convert_lane_identity_roundtrip {b : ℕ} (hb : 2 ≤ b) (w : ℕ)
    (hw : w < 2 ^ 64) :
    convert_lane (Nat.ofDigits b (bitsLe 64 w)) b 2 (fun y => y) = w := by
  have hbits : ∀ d ∈ bitsLe 64 w, d < b :=
    fun d hd => lt_of_lt_of_le (bitsLe_lt_two d hd) hb
  simp only [convert_lane, to_radix_be, List.map_id', from_radix_be,
    List.reverse_reverse]
  rcases eq_or_ne (Nat.ofDigits b (bitsLe 64 w)) 0 with h0 | h0
  · rw [to_radix_le_eq hb, if_pos h0]
    have hz : from_radix_le [0] 2 = some 0 := by decide
    rw [hz]
    have hw0 : ∀ d ∈ bitsLe 64 w, d = 0 :=
      Nat.digits_zero_of_eq_zero (by omega) h0
    have : w % 2 ^ 64 = 0 := by
      rw [← ofDigits_two_bitsLe w 64, ofDigits_eq_zero_of_all_zero hw0]
    rw [Nat.mod_eq_of_lt hw] at this
    simp [this]
  · rw [to_radix_le_eq hb, if_neg h0,
      digits_ofDigits_eq_dropTrailingZeros hb _ hbits]
    have hcond : 2 ≤ 2 ∧ 2 ≤ 256 ∧
        (dropTrailingZeros (bitsLe 64 w)).all (fun d => decide (d < 2)) := by
      refine ⟨le_rfl, by norm_num, List.all_eq_true.mpr ?_⟩
      intro d hd
      exact decide_eq_true (bitsLe_lt_two d (mem_dropTrailingZeros hd))
    unfold from_radix_le
    rw [if_pos hcond, Option.getD_some, ofDigits_dropTrailingZeros,
      ofDigits_two_bitsLe, Nat.mod_eq_of_lt hw]

/-- C1: decoding the one-bit-per-digit base-9 encoding with the identity
coefficient recovers the word, and likewise for base 13 via `convert_lane`. -/
theorem c1_binary_roundtrips (w : ℕ) (hw : w < 2 ^ 64) :
    convert_b9_lane_to_b2_normal (convert_b2_to_b9 w) = w ∧
    convert_lane (convert_b2_to_b13 w) B13 2 (fun y => y) = w := by
  have h9 : convert_b2_to_b9 w = Nat.ofDigits B9 (bitsLe 64 w) :=
    foldl_bits_eq_ofDigits B9 w 64
  have h13 : convert_b2_to_b13 w = Nat.ofDigits B13 (bitsLe 64 w) :=
    foldl_bits_eq_ofDigits B13 w 64
  constructor
  · rw [convert_b9_lane_to_b2_normal, h9, first_u64_digit_eq_mod,
      convert_lane_identity_roundtrip (by decide) w hw, Nat.mod_eq_of_lt hw]
  · rw [h13, convert_lane_identity_roundtrip (by decide) w hw]

/-- Witness for C1 at `w = 5` (the spec's concrete example `toBase9 5 = 82`,
`genericConvert 82 9 2 id = 5`). -/
theorem c1_witness :
    5 < 2 ^ 64 ∧
      (convert_b9_lane_to_b2_normal (convert_b2_to_b9 5) = 5 ∧
        convert_lane (convert_b2_to_b13 5) B13 2 (fun y => y) = 5) :=
  ⟨by norm_num, c1_binary_roundtrips 5 (by norm_num)⟩

/-! ### C2: the rotate-fold split -/

/-- The rotation-fold recipe exactly as the claim/spec words it: with 65
little-endian base-13 digits `digit[0..65)`, `special = digit 0 + digit 64`,
`left` the digits at indices `[1, 63 - rot)` and `right` the digits at
indices `[63 - rot, 64)`, assemble `right ++ [special] ++ left`, map
`convert_b13_coef`, and recompose little-endian in base 9. -/
def spec_rotate_fold (x : ℕ) (rot : ℕ) : ℕ :=
  let chunks := resize (to_radix_le x B13) 65
  let digit := fun i => chunks.getD i 0
  let special := digit 0 + digit 64
  let left := (List.range' 1 (62 - rot)).map digit
  let right := (List.range' (63 - rot) (rot + 1)).map digit
  let rotated := (right ++ [special] ++ left).map convert_b13_coef
  (from_radix_le rotated B9).getD 0

/-- The amended recipe: the split point in digit-index space is `64 - rot`,
i.e. `left` covers indices `[1, 64 - rot)` and `right` covers
`[64 - rot, 64)` (so `right` has `rot` digits and is empty at `rot = 0`). -/
def amended_rotate_fold (x : ℕ) (rot : ℕ) : ℕ :=
  let chunks := resize (to_radix_le x B13) 65
  let digit := fun i => chunks.getD i 0
  let special := digit 0 + digit 64
  let left := (List.range' 1 (63 - rot)).map digit
  let right := (List.range' (64 - rot) rot).map digit
  let rotated := (right ++ [special] ++ left).map convert_b13_coef
  (from_radix_le rotated B9).getD 0

theorem resize_length (l : List ℕ) (n : ℕ) : (resize l n).length = n := by
  simp only [resize, List.length_append, List.length_take, List.length_replicate]
  omega

theorem drop_take_eq_map_range' (l : List ℕ) (s n : ℕ) (h : s + n ≤ l.length) :
    (l.drop s).take n = (List.range' s n).map (fun i => l.getD i 0) := by
  apply List.ext_getElem
  · simp only [List.length_take, List.length_drop, List.length_map,
      List.length_range']
    omega
  · intro i h1 h2
    simp only [List.length_take, List.length_drop] at h1
    simp only [List.getElem_take, List.getElem_drop, List.getElem_map,
      List.getElem_range']
    rw [List.getD_eq_getElem?_getD, List.getElem?_eq_getElem (by omega),
      Option.getD_some]
    congr 1
    omega

set_option maxHeartbeats 2000000 in
/-- C2 counterexample: already at `rot = 0` on the lane with base-13 digits
`[0,1,1,1]`, the code differs from the claim's split (the code yields the
base-9 value of `[0,1,1,1]`, the claim's split yields that of
`[0,0,1,1,1]`). -/
theorem c2_counterexample :
    ¬ convert_b13_lane_to_b9 (Nat.ofDigits 13 [0, 1, 1, 1]) 0 =
        spec_rotate_fold (Nat.ofDigits 13 [0, 1, 1, 1]) 0 := by
  decide

/-- C2 amended: `convert_b13_lane_to_b9` realizes the rotate-fold recipe with
split point `64 - rot`: `left = digit[1 .. 64-rot)`,
`right = digit[64-rot .. 64)`, output `right ++ [special] ++ left` mapped
through `convert_b13_coef` and recomposed little-endian in base 9; at
`rot = 0`, `right` is empty and `special` is placed first (least
significant), immediately before the full 63-digit `left` segment. -/
theorem c2_rotate_fold_split (x rot : ℕ) (hrot : rot ≤ 63) :
    convert_b13_lane_to_b9 x rot = amended_rotate_fold x rot := by
  have hlen : (resize (to_radix_le x B13) 65).length = 65 := resize_length _ _
  have hleft : ((((resize (to_radix_le x B13) 65).drop 1).take 63)).take (63 - rot) =
      (List.range' 1 (63 - rot)).map
        (fun i => (resize (to_radix_le x B13) 65).getD i 0) := by
    rw [List.take_take, min_eq_left (by omega),
      drop_take_eq_map_range' _ 1 (63 - rot) (by omega)]
  have hright : ((((resize (to_radix_le x B13) 65).drop 1).take 63)).drop (63 - rot) =
      (List.range' (64 - rot) rot).map
        (fun i => (resize (to_radix_le x B13) 65).getD i 0) := by
    rw [List.drop_take, List.drop_drop,
      show 63 - (63 - rot) = rot by omega, show 1 + (63 - rot) = 64 - rot by omega,
      drop_take_eq_map_range' _ (64 - rot) rot (by omega)]
  simp only [convert_b13_lane_to_b9, amended_rotate_fold, hleft, hright]

/-- Witness for the amended C2 at the test lane `2379 = [0,1,1,1]₁₃`,
`rot = 4`. -/
theorem c2_witness :
    4 ≤ 63 ∧ convert_b13_lane_to_b9 2379 4 = amended_rotate_fold 2379 4 :=
  ⟨by decide, c2_rotate_fold_split 2379 4 (by decide)⟩

/-! ### C5: the field-element bridge rejects oversized lanes -/

theorem ofDigits_to_radix_le {b : ℕ} (hb : 2 ≤ b) (x : ℕ) :
    Nat.ofDigits b (to_radix_le x b) = x := by
  rw [to_radix_le_eq hb]
  rcases eq_or_ne x 0 with rfl | h0
  · simp
  · rw [if_neg h0, Nat.ofDigits_digits]

theorem to_bytes_le_length_le {x : ℕ} (hx : x < 256 ^ 32) :
    (to_bytes_le x).length ≤ 32 := by
  unfold to_bytes_le
  rw [to_radix_le_eq (by norm_num)]
  rcases eq_or_ne x 0 with rfl | h0
  · simp
  · rw [if_neg h0]
    by_contra hlen
    push_neg at hlen
    have h1 : 256 ^ (Nat.digits 256 x).length ≤ 256 * x :=
      Nat.base_pow_length_digits_le 256 x (by norm_num) h0
    have h2 : (256 : ℕ) ^ 33 ≤ 256 ^ (Nat.digits 256 x).length :=
      Nat.pow_le_pow_right (by norm_num) hlen
    have h3 : 256 * 256 ^ 32 ≤ 256 * x := by
      calc 256 * 256 ^ 32 = (256 : ℕ) ^ 33 := by ring
        _ ≤ 256 ^ (Nat.digits 256 x).length := h2
        _ ≤ 256 * x := h1
    have := Nat.le_of_mul_le_mul_left h3 (by norm_num)
    omega

theorem to_bytes_le_length_gt {x : ℕ} (hx : 256 ^ 32 ≤ x) :
    32 < (to_bytes_le x).length := by
  have hpow : (0 : ℕ) < 256 ^ 32 := by positivity
  have h0 : x ≠ 0 := by omega
  unfold to_bytes_le
  rw [to_radix_le_eq (by norm_num), if_neg h0]
  by_contra h
  push_neg at h
  have h1 : x < 256 ^ (Nat.digits 256 x).length :=
    Nat.lt_base_pow_length_digits (by norm_num)
  have h2 : (256 : ℕ) ^ (Nat.digits 256 x).length ≤ 256 ^ 32 :=
    Nat.pow_le_pow_right (by norm_num) h
  omega

/-- `mapM` over `Option` aborts when any element aborts. -/
theorem mapM_eq_none_of_mem {α β : Type} (f : α → Option β) :
    ∀ (l : List α) (a : α), a ∈ l → f a = none → l.mapM f = none := by
  intro l
  induction l with
  | nil =>
    intro a ha
    cases ha
  | cons hd tl ih =>
    intro a ha hfa
    rw [List.mapM_cons]
    rcases List.mem_cons.mp ha with rfl | hmem
    · rw [hfa]
      rfl
    · rw [ih a hmem hfa]
      cases hf : f hd <;> rfl

/-- C5: a state containing a lane at or above the field modulus is rejected
by `state_bigint_to_field` (the conversion aborts; it never produces a
truncated field element). -/
theorem c5_field_bridge_rejects_oversized_lane (p n : ℕ) (s : StateBigInt)
    (h : ∃ lane ∈ s.xy, p ≤ lane) :
    state_bigint_to_field p n s = none := by
  obtain ⟨lane, hmem, hp⟩ := h
  have hf : (if (to_bytes_le lane).length ≤ 32 then
      from_repr p (to_bytes_le lane ++
        List.replicate (32 - (to_bytes_le lane).length) 0)
      else none) = none := by
    rcases lt_or_le lane (256 ^ 32) with hlt | hge
    · rw [if_pos (to_bytes_le_length_le hlt)]
      unfold from_repr
      rw [if_neg]
      unfold to_bytes_le
      rw [Nat.ofDigits_append, ofDigits_replicate_zero, Nat.mul_zero,
        Nat.add_zero, ofDigits_to_radix_le (by norm_num : (2 : ℕ) ≤ 256)]
      omega
    · rw [if_neg (by have := to_bytes_le_length_gt hge; omega)]
  have hmap : s.xy.mapM (fun elem =>
      let bytes := to_bytes_le elem
      if bytes.length ≤ 32 then
        from_repr p (bytes ++ List.replicate (32 - bytes.length) 0)
      else none) = none :=
    mapM_eq_none_of_mem _ s.xy lane hmem hf
  unfold state_bigint_to_field
  rw [hmap]
  rfl

/-- Witness for C5: the single-lane state `[7]` over a field of modulus 5. -/
theorem c5_witness :
    (∃ lane ∈ (StateBigInt.mk [7]).xy, 5 ≤ lane) ∧
      state_bigint_to_field 5 1 (StateBigInt.mk [7]) = none :=
  ⟨by decide, c5_field_bridge_rejects_oversized_lane 5 1 (StateBigInt.mk [7])
    (by decide)⟩

/-! ### C9: default state and double transform -/

theorem index_eq_getElem? (s : StateBigInt) {x y : ℕ} (hx : x < 5)
    (hy : y < 5) : s.index x y = s.xy[x * 5 + y]? := by
  unfold StateBigInt.index
  rw [if_pos hx, if_pos hy]

theorem getElem?_eq_some_getD {l : List ℕ} {i : ℕ} (h : i < l.length) :
    l[i]? = some (l.getD i 0) := by
  rw [List.getElem?_eq_getElem h, List.getD_eq_getElem?_getD,
    List.getElem?_eq_getElem h, Option.getD_some]

theorem index_eq_some {s : StateBigInt} {x y : ℕ} (hx : x < 5) (hy : y < 5)
    (h : x * 5 + y < s.xy.length) :
    s.index x y = some (s.xy.getD (x * 5 + y) 0) := by
  rw [index_eq_getElem? s hx hy, getElem?_eq_some_getD h]

theorem index_mut_set_eq_some {s : StateBigInt} {x y v : ℕ} (hx : x < 5)
    (hy : y < 5) (h : x * 5 + y < s.xy.length) :
    s.index_mut_set x y v = some ⟨s.xy.set (x * 5 + y) v⟩ := by
  unfold StateBigInt.index_mut_set
  rw [if_pos hx, if_pos hy, if_pos h]

/-- Characterization of the coordinate-update fold of
`from_state_big_int`: it succeeds as long as every visited coordinate is
in range, writing `f (a[i])` at every visited flat index `i` and keeping
the accumulator elsewhere. -/
theorem from_state_big_int_fold_spec (a : StateBigInt) (f : ℕ → ℕ) :
    ∀ (pairs : List (ℕ × ℕ)) (out : StateBigInt),
      (∀ p ∈ pairs, p.1 < 5 ∧ p.2 < 5) →
      (∀ p ∈ pairs, p.1 * 5 + p.2 < a.xy.length) →
      (∀ p ∈ pairs, p.1 * 5 + p.2 < out.xy.length) →
      ∃ r, pairs.foldlM (fun out p => do
            let v ← a.index p.1 p.2
            out.index_mut_set p.1 p.2 (f v)) out = some r ∧
        r.xy.length = out.xy.length ∧
        ∀ i, r.xy[i]? =
          if i ∈ pairs.map (fun p => p.1 * 5 + p.2) then
            some (f (a.xy.getD i 0))
          else out.xy[i]? := by
  intro pairs
  induction pairs with
  | nil =>
    intro out hv ha hout
    refine ⟨out, rfl, rfl, ?_⟩
    intro i
    simp
  | cons p ps ih =>
    intro out hv ha hout
    obtain ⟨px, py⟩ := p
    obtain ⟨hx, hy⟩ := hv (px, py) (List.mem_cons_self _ _)
    have hia := ha (px, py) (List.mem_cons_self _ _)
    have hio := hout (px, py) (List.mem_cons_self _ _)
    simp only at hx hy hia hio
    rw [List.foldlM_cons, index_eq_some hx hy hia]
    simp only [Option.bind_eq_bind, Option.some_bind]
    rw [index_mut_set_eq_some hx hy hio]
    simp only [Option.bind_eq_bind, Option.some_bind]
    obtain ⟨r, hr, hrlen, hrchar⟩ := ih
      ⟨out.xy.set (px * 5 + py) (f (a.xy.getD (px * 5 + py) 0))⟩
      (fun q hq => hv q (List.mem_cons_of_mem _ hq))
      (fun q hq => ha q (List.mem_cons_of_mem _ hq))
      (fun q hq => by
        have := hout q (List.mem_cons_of_mem _ hq)
        simpa [List.length_set] using this)
    refine ⟨r, hr, ?_, ?_⟩
    · rw [hrlen]
      simp [List.length_set]
    · intro i
      rw [hrchar i, List.map_cons]
      rcases eq_or_ne i (px * 5 + py) with rfl | hne
      · rw [if_pos (List.mem_cons_self _ _)]
        by_cases hmem : px * 5 + py ∈ ps.map (fun p => p.1 * 5 + p.2)
        · rw [if_pos hmem]
        · rw [if_neg hmem]
          exact List.getElem?_set_self hio
      · by_cases hmem : i ∈ ps.map (fun p => p.1 * 5 + p.2)
        · rw [if_pos hmem, if_pos (List.mem_cons_of_mem _ hmem)]
        · have hnotc : i ∉ (px * 5 + py) :: ps.map (fun p => p.1 * 5 + p.2) := by
            rw [List.mem_cons]
            rintro (h | h)
            · exact hne h
            · exact hmem h
          rw [if_neg hmem, if_neg hnotc]
          exact List.getElem?_set_ne (by omega)

theorem default_xy_length : StateBigInt.default.xy.length = 25 := by decide

/-- C9: the default state is all-zero at every coordinate, and transforming
twice with pointwise-inverse lane maps restores every lane. -/
theorem c9_default_zero_and_transform_involutive (s : StateBigInt)
    (f g : ℕ → ℕ) (hlen : s.xy.length = 25) (hinv : ∀ v, g (f v) = v) :
    (∀ x y, x < 5 → y < 5 → StateBigInt.default.index x y = some 0) ∧
    ∃ t u, StateBigInt.from_state_big_int s f = some t ∧
      StateBigInt.from_state_big_int t g = some u ∧
      ∀ x y, x < 5 → y < 5 → u.index x y = s.index x y := by
  have hvalid : ∀ p ∈ cartesian_product_5_5, p.1 < 5 ∧ p.2 < 5 := by decide
  have hidx : ∀ p ∈ cartesian_product_5_5, p.1 * 5 + p.2 < 25 := by decide
  have hdl : StateBigInt.default.xy.length = 25 := default_xy_length
  constructor
  · intro x y hx hy
    interval_cases x <;> interval_cases y <;> rfl
  · obtain ⟨t, ht, htlen, htchar⟩ :=
      from_state_big_int_fold_spec s f cartesian_product_5_5
        StateBigInt.default hvalid
        (fun p hp => by rw [hlen]; exact hidx p hp)
        (fun p hp => by rw [hdl]; exact hidx p hp)
    obtain ⟨u, hu, hulen, huchar⟩ :=
      from_state_big_int_fold_spec t g cartesian_product_5_5
        StateBigInt.default hvalid
        (fun p hp => by rw [htlen, hdl]; exact hidx p hp)
        (fun p hp => by rw [hdl]; exact hidx p hp)
    refine ⟨t, u, ht, hu, ?_⟩
    intro x y hx hy
    have hi : x * 5 + y < 25 := by omega
    have hmem : (x * 5 + y) ∈
        cartesian_product_5_5.map (fun p => p.1 * 5 + p.2) := by
      have hall : ∀ i < 25,
          i ∈ cartesian_product_5_5.map (fun p => p.1 * 5 + p.2) := by decide
      exact hall _ hi
    rw [index_eq_getElem? u hx hy, index_eq_getElem? s hx hy,
      huchar (x * 5 + y), if_pos hmem]
    have htd : t.xy.getD (x * 5 + y) 0 = f (s.xy.getD (x * 5 + y) 0) := by
      have hch := htchar (x * 5 + y)
      rw [if_pos hmem] at hch
      rw [List.getD_eq_getElem?_getD, hch, Option.getD_some]
    rw [htd, hinv, getElem?_eq_some_getD (by rw [hlen]; exact hi)]

/-- Witness for C9: the default state with identity transforms. -/
theorem c9_witness :
    (∀ x y, x < 5 → y < 5 → StateBigInt.default.index x y = some 0) ∧
    ∃ t u,
      StateBigInt.from_state_big_int StateBigInt.default (fun v => v) =
        some t ∧
      StateBigInt.from_state_big_int t (fun v => v) = some u ∧
      ∀ x y, x < 5 → y < 5 →
        u.index x y = StateBigInt.default.index x y :=
  c9_default_zero_and_transform_involutive StateBigInt.default
    (fun v => v) (fun v => v) default_xy_length (fun v => rfl)

end ZkKeccak
